import Mathlib

set_option maxHeartbeats 1000000

/-!
Shallow embedding of the exact-reader repository: a growable ring buffer
(`VecDeque`), a virtual concatenation of seekable byte sources (`MultiFile`),
and the buffered reader (`ExactReader`) built on top of them.  Machine bytes
are modelled as `Nat`; the physical buffer of the ring is a total function
`Nat → Nat` whose meaningful domain is `[0, cap)`.  Raw-pointer copies that
would leave the allocation are modelled by `Option` (`none` = undefined
behaviour / panic), as are Rust panics in slice indexing and `unreachable!()`.
-/

/-- Memmove semantics of `ptr::copy`: the `len` slots starting at `dst`
receive the values the `len` slots starting at `src` held before the call. -/
def copyF (f : Nat → Nat) (src dst len : Nat) : Nat → Nat :=
  fun i => if dst ≤ i ∧ i < dst + len then f (src + (i - dst)) else f i

/-- A non-wrapping `copy_nonoverlapping` from a Rust slice into the buffer. -/
def writeList (f : Nat → Nat) (start : Nat) (s : List Nat) : Nat → Nat :=
  fun i => if start ≤ i ∧ i < start + s.length then s.getD (i - start) 0 else f i

/-- A single `buffer_write`. -/
def writeOne (f : Nat → Nat) (idx v : Nat) : Nat → Nat :=
  fun i => if i = idx then v else f i

/-- `wrap_index` from `vec_deq/mod.rs`. -/
def wrapIndex (logicalIndex capacity : Nat) : Nat :=
  if logicalIndex ≥ capacity then logicalIndex - capacity else logicalIndex

/-- The ring buffer `VecDeque` of `vec_deq/mod.rs`, with its physical buffer
as a function out of `Nat` (slots `≥ cap` are outside the allocation). -/
structure VecDeque where
  head : Nat
  len : Nat
  cap : Nat
  data : Nat → Nat

def VecDeque.new : VecDeque := ⟨0, 0, 0, fun _ => 0⟩

def VecDeque.wrap_add (q : VecDeque) (idx addend : Nat) : Nat :=
  wrapIndex (idx + addend) q.cap

def VecDeque.to_physical_idx (q : VecDeque) (idx : Nat) : Nat :=
  q.wrap_add q.head idx

def VecDeque.wrap_sub (q : VecDeque) (idx subtrahend : Nat) : Nat :=
  wrapIndex (idx + q.cap - subtrahend) q.cap

/-- `VecDeque::wrap_copy`: the 8-case in-place wrapped copy. Sequencing of
the underlying `copy` calls is reflected by nesting of `copyF`. -/
def VecDeque.wrap_copy (q : VecDeque) (src dst len : Nat) : VecDeque :=
  if src = dst ∨ len = 0 then q
  else
    let dstAfterSrc := q.wrap_sub dst src < len
    let srcPreWrapLen := q.cap - src
    let dstPreWrapLen := q.cap - dst
    let srcWraps := srcPreWrapLen < len
    let dstWraps := dstPreWrapLen < len
    { q with data :=
        if srcWraps then
          if dstWraps then
            if dstAfterSrc then
              -- (true, true, true)
              let delta := srcPreWrapLen - dstPreWrapLen
              copyF (copyF (copyF q.data 0 delta (len - srcPreWrapLen))
                (q.cap - delta) 0 delta) src dst dstPreWrapLen
            else
              -- (false, true, true)
              let delta := dstPreWrapLen - srcPreWrapLen
              copyF (copyF (copyF q.data src dst srcPreWrapLen)
                0 (dst + srcPreWrapLen) delta) delta 0 (len - dstPreWrapLen)
          else
            if dstAfterSrc then
              -- (true, true, false)
              copyF (copyF q.data 0 (dst + srcPreWrapLen) (len - srcPreWrapLen))
                src dst srcPreWrapLen
            else
              -- (false, true, false)
              copyF (copyF q.data src dst srcPreWrapLen)
                0 (dst + srcPreWrapLen) (len - srcPreWrapLen)
        else
          if dstWraps then
            if dstAfterSrc then
              -- (true, false, true)
              copyF (copyF q.data (src + dstPreWrapLen) 0 (len - dstPreWrapLen))
                src dst dstPreWrapLen
            else
              -- (false, false, true)
              copyF (copyF q.data src dst dstPreWrapLen)
                (src + dstPreWrapLen) 0 (len - dstPreWrapLen)
          else
            -- (_, false, false)
            copyF q.data src dst len }

/-- One contiguous physical run of the buffer, as `slice_ranges` views it. -/
def VecDeque.slice_proj (q : VecDeque) (a k : Nat) : List Nat :=
  (List.range k).map (fun i => q.data (a + i))

/-- `VecDeque::as_slices` (backed by `slice_ranges` over the full range). -/
def VecDeque.as_slices (q : VecDeque) : List Nat × List Nat :=
  if q.len = 0 then ([], [])
  else
    let wrappedStart := q.to_physical_idx 0
    let headLen := q.cap - wrappedStart
    if headLen ≥ q.len then (q.slice_proj wrappedStart q.len, [])
    else (q.slice_proj wrappedStart headLen, q.slice_proj 0 (q.len - headLen))

/-- `VecDeque::handle_capacity_increase` (cases A / B / C); `q.cap` is the
already-updated new capacity. -/
def VecDeque.handle_capacity_increase (q : VecDeque) (oldCapacity : Nat) : VecDeque :=
  if q.head ≤ oldCapacity - q.len then q
  else
    let headLen := oldCapacity - q.head
    let tailLen := q.len - headLen
    if headLen > tailLen ∧ q.cap - oldCapacity ≥ tailLen then
      { q with data := copyF q.data 0 oldCapacity tailLen }
    else
      let newHead := q.cap - headLen
      { q with data := copyF q.data q.head newHead headLen, head := newHead }

/-- Amortized capacity choice of `RawVec::grow_amortized`:
`max(MIN_NON_ZERO_CAP, max(cap * 2, required))`. -/
def growCap (cap required : Nat) : Nat := max 8 (max (cap * 2) required)

/-- `VecDeque::reserve` (via `RawVec::reserve` + `handle_capacity_increase`). -/
def VecDeque.reserve (q : VecDeque) (additional : Nat) : VecDeque :=
  if q.len + additional > q.cap then
    VecDeque.handle_capacity_increase
      { q with cap := growCap q.cap (q.len + additional) } q.cap
  else q

/-- `VecDeque::grow` (`reserve_for_push` on a full deque). -/
def VecDeque.grow (q : VecDeque) : VecDeque :=
  VecDeque.handle_capacity_increase
    { q with cap := growCap q.cap (q.cap + 1) } q.cap

/-- `VecDeque::extend_back`: after reserving, one single non-wrapping
`copy_nonoverlapping` at the physical tail.  When that run would leave the
allocation (`tail + |s| > cap`) the write is out of bounds: `none`. -/
def VecDeque.extend_back (q : VecDeque) (extendFrom : List Nat) : Option VecDeque :=
  if extendFrom.length = 0 then some q
  else
    let q1 := q.reserve extendFrom.length
    let tail := q1.to_physical_idx q1.len
    if tail + extendFrom.length ≤ q1.cap then
      some { q1 with data := writeList q1.data tail extendFrom,
                     len := q1.len + extendFrom.length }
    else none

/-- `VecDeque::extend_front`: single non-wrapping copy at the new head;
out of bounds (`none`) when the run would leave the allocation. -/
def VecDeque.extend_front (q : VecDeque) (extendFrom : List Nat) : Option VecDeque :=
  if extendFrom.length = 0 then some q
  else
    let q1 := q.reserve extendFrom.length
    let newHead := q1.wrap_sub q1.head extendFrom.length
    if newHead + extendFrom.length ≤ q1.cap then
      some { q1 with data := writeList q1.data newHead extendFrom,
                     head := newHead,
                     len := q1.len + extendFrom.length }
    else none

/-- `VecDeque::clear` (truncate to 0, reset head). -/
def VecDeque.clear (q : VecDeque) : VecDeque :=
  { q with len := 0, head := 0 }

/-- `VecDeque::push_back`. -/
def VecDeque.push_back (q : VecDeque) (v : Nat) : VecDeque :=
  let q1 := if q.len = q.cap then q.grow else q
  { q1 with data := writeOne q1.data (q1.to_physical_idx q1.len) v,
            len := q1.len + 1 }

/-- `VecDeque::push_front`. -/
def VecDeque.push_front (q : VecDeque) (v : Nat) : VecDeque :=
  let q1 := if q.len = q.cap then q.grow else q
  let h := q1.wrap_sub q1.head 1
  { q1 with data := writeOne q1.data h v, head := h, len := q1.len + 1 }

/-- `VecDeque::pop_front`. -/
def VecDeque.pop_front (q : VecDeque) : VecDeque × Option Nat :=
  if q.len = 0 then (q, none)
  else ({ q with head := q.to_physical_idx 1, len := q.len - 1 },
        some (q.data q.head))

/-- `VecDeque::pop_back`. -/
def VecDeque.pop_back (q : VecDeque) : VecDeque × Option Nat :=
  if q.len = 0 then (q, none)
  else ({ q with len := q.len - 1 },
        some (q.data (q.to_physical_idx (q.len - 1))))

/-- The logical contents of the deque: element `i` lives at physical slot
`(head + i) % cap`. -/
def VecDeque.toList (q : VecDeque) : List Nat :=
  (List.range q.len).map (fun i => q.data ((q.head + i) % q.cap))

/-- The structural invariant of the ring buffer. -/
def VecDeque.Inv (q : VecDeque) : Prop :=
  q.len ≤ q.cap ∧ (q.cap = 0 → q.head = 0) ∧ (0 < q.cap → q.head < q.cap)

instance (q : VecDeque) : Decidable q.Inv := by
  unfold VecDeque.Inv; infer_instance

/-- `std::io::SeekFrom`. -/
inductive SeekFrom
  | start (o : Nat)
  | fromEnd (o : Int)
  | current (o : Int)

/-- `utils::calculate_seek`: resolve a seek request against a stream `size`
and the `currentOffset`; negative results are an input error. -/
def calculate_seek (size currentOffset : Nat) (pos : SeekFrom) : Except Unit Nat :=
  let bp : Int × Int :=
    match pos with
    | .start o => (0, (o : Int))
    | .fromEnd o => ((size : Int), o)
    | .current o => ((currentOffset : Int), o)
  let newPos := bp.1 + bp.2
  if newPos < 0 then .error () else .ok newPos.toNat

/-- A `File<Cursor<Vec<u8>>>`: in-memory bytes, a cursor position and the
`size` recorded in the `File` wrapper. -/
structure CFile where
  data : List Nat
  pos : Nat
  size : Nat

/-- `Cursor::read` through `File::read`: yields `min(want, len - pos)` bytes
from the current position. -/
def CFile.readC (f : CFile) (want : Nat) : CFile × List Nat :=
  let avail := f.data.length - f.pos
  let k := min want avail
  ({ f with pos := f.pos + k }, (f.data.drop f.pos).take k)

/-- `Cursor::seek` through `File::seek`: may land past the end; errors only
when the resolved position is negative. -/
def CFile.seekC (f : CFile) (pos : SeekFrom) : Except Unit (CFile × Nat) :=
  match pos with
  | .start o => .ok ({ f with pos := o }, o)
  | .fromEnd o =>
      let r := (f.data.length : Int) + o
      if r < 0 then .error () else .ok ({ f with pos := r.toNat }, r.toNat)
  | .current o =>
      let r := (f.pos : Int) + o
      if r < 0 then .error () else .ok ({ f with pos := r.toNat }, r.toNat)

/-- `MultiFile`: the virtual concatenation of `File`s. -/
structure MultiFile where
  files : List CFile
  cumul_offset : Nat
  infile_offset : Nat
  total_len : Nat
  current_file_idx : Nat

/-- `MultiFile::new`. -/
def MultiFile.new (files : List CFile) : MultiFile :=
  ⟨files, 0, 0, (files.map (·.size)).sum, 0⟩

def MultiFile.size (m : MultiFile) : Nat := m.total_len

/-- `MultiFile::physical_offset`. -/
def MultiFile.physical_offset (m : MultiFile) : Nat :=
  m.cumul_offset + m.infile_offset

/-- Outcome of `needle_to_file`: a found index, `None`, or the
`unreachable!()` panic at the end of the function. -/
inductive NeedleResult
  | file (idx : Nat)
  | notFound
  | panicked
deriving DecidableEq

/-- Backward scan of `needle_to_file` (over `files[..current_file_idx]`,
condition `res + size >= needle`); falling off the loop is `unreachable!()`. -/
def needleBack : List CFile → Nat → Nat → Nat → NeedleResult
  | [], _, _, _ => .panicked
  | f :: rest, needle, res, idx =>
      if res + f.size ≥ needle then .file idx
      else needleBack rest needle (res + f.size) (idx + 1)

/-- Forward scan of `needle_to_file` (over `files[current_file_idx..]`,
condition `res + size > needle`); falling off the loop is `unreachable!()`. -/
def needleFwd : List CFile → Nat → Nat → Nat → NeedleResult
  | [], _, _, _ => .panicked
  | f :: rest, needle, res, idx =>
      if res + f.size > needle then .file idx
      else needleFwd rest needle (res + f.size) (idx + 1)

/-- `MultiFile::needle_to_file`. -/
def MultiFile.needle_to_file (m : MultiFile) (needle : Nat) : NeedleResult :=
  if needle > m.total_len then .notFound
  else if m.cumul_offset = needle then .file m.current_file_idx
  else if m.cumul_offset > needle then
    needleBack (m.files.take m.current_file_idx) needle 0 0
  else
    needleFwd (m.files.drop m.current_file_idx) needle m.cumul_offset m.current_file_idx

/-- The read loop of `<MultiFile as Read>::read` over the suffix of files
from `current_file_idx`: returns the updated suffix, the bytes delivered,
the relative index of the last file touched, and `infile` (the count read
from that last file in this call). -/
def mfLoop : List CFile → Nat → List CFile × List Nat × Nat × Nat
  | [], _ => ([], [], 0, 0)
  | f :: rest, want =>
      let fr := f.readC want
      let k := fr.2.length
      if k = want then (fr.1 :: rest, fr.2, 0, k)
      else
        match rest with
        | [] => ([fr.1], fr.2, 0, k)
        | r :: rs =>
            let cont := mfLoop (r :: rs) (want - k)
            (fr.1 :: cont.1, fr.2 ++ cont.2.1, cont.2.2.1 + 1, cont.2.2.2)

/-- `<MultiFile as Read>::read`: fill `n` bytes across source boundaries;
`infile_offset` is overwritten with this call's count from the last file. -/
def MultiFile.readM (m : MultiFile) (n : Nat) : MultiFile × List Nat :=
  let suffix := m.files.drop m.current_file_idx
  let lr := mfLoop suffix n
  let tailIdx := m.current_file_idx + lr.2.2.1
  let dcum := ((suffix.take lr.2.2.1).map (·.size)).sum
  ({ m with files := m.files.take m.current_file_idx ++ lr.1,
            cumul_offset := m.cumul_offset + dcum,
            current_file_idx := tailIdx,
            infile_offset := lr.2.2.2 }, lr.2.1)

/-- Seek every file of a segment to the given position, threading errors
(the repositioning loops of `<MultiFile as Seek>::seek`). -/
def seekAll (fs : List CFile) (pos : SeekFrom) : Except Unit (List CFile) :=
  match fs with
  | [] => .ok []
  | f :: rest => do
      let fr ← f.seekC pos
      let rest' ← seekAll rest pos
      return fr.1 :: rest'

/-- `<MultiFile as Seek>::seek`; `none` models the panic when
`needle_to_file` hits `unreachable!()` or the `.unwrap()` sees `None`. -/
def MultiFile.seekM (m : MultiFile) (pos : SeekFrom) : Option (Except Unit (MultiFile × Nat)) :=
  match calculate_seek m.total_len m.physical_offset pos with
  | .error e => some (.error e)
  | .ok calculatedSeek =>
    match m.needle_to_file calculatedSeek with
    | .panicked => none
    | .notFound => none
    | .file calculatedIdx =>
      let newCum := ((m.files.take calculatedIdx).map (·.size)).sum
      let seekTo := calculatedSeek - newCum
      let repositioned : Except Unit (List CFile) :=
        if m.current_file_idx < calculatedIdx then do
          let pre ← seekAll (m.files.take calculatedIdx) (.fromEnd 0)
          return pre ++ m.files.drop calculatedIdx
        else if calculatedIdx < m.current_file_idx then do
          let seg ← seekAll
            ((m.files.drop (calculatedIdx + 1)).take (m.current_file_idx - calculatedIdx))
            (.start 0)
          return m.files.take (calculatedIdx + 1) ++ seg ++
            m.files.drop (m.current_file_idx + 1)
        else .ok m.files
      some <| do
        let files' ← repositioned
        match files'.get? calculatedIdx with
        | none => return (m, 0)
        | some f => do
          let fr ← f.seekC (.start seekTo)
          return ({ m with files := files'.set calculatedIdx fr.1,
                           current_file_idx := calculatedIdx,
                           cumul_offset := newCum,
                           infile_offset := fr.2 }, newCum + fr.2)

/-- The loop of `take(n).read_to_end` over a `MultiFile`: repeatedly call
`read` with the remaining budget until it returns 0 bytes or the budget is
exhausted.  `fuel` only makes the recursion structural; every recursive
step consumes at least one byte of budget, so `fuel = budget` suffices. -/
def mfReadToEndGo : Nat → MultiFile → Nat → MultiFile × List Nat
  | _, m, 0 => (m, [])
  | 0, m, _ => (m, [])
  | fuel + 1, m, budget + 1 =>
      match m.readM (budget + 1) with
      | (m1, bs) =>
        if bs.length = 0 then (m1, [])
        else
          let r2 := mfReadToEndGo fuel m1 (budget + 1 - bs.length)
          (r2.1, bs ++ r2.2)

/-- `take(n).read_to_end` over a `MultiFile`. -/
def mfReadToEnd (m : MultiFile) (n : Nat) : MultiFile × List Nat :=
  mfReadToEndGo n m n

/-- The capability contract the reader consumes from its inner `R`:
the effect of `take(n).read_to_end` (bytes actually read plus an error
flag), and `seek` (with `none` for a panic inside the source). -/
structure Src (σ : Type) where
  takeReadToEnd : σ → Nat → σ × List Nat × Bool
  seekS : σ → SeekFrom → Option (Except Unit (σ × Nat))

/-- `take(n).read_to_end` for a single `File<Cursor<_>>` source. -/
def cfTakeReadToEnd (f : CFile) (n : Nat) : CFile × List Nat × Bool :=
  let fr := f.readC n
  (fr.1, fr.2, false)

/-- A single cursor-backed file as a reader source. -/
def cursorSrc : Src CFile :=
  ⟨cfTakeReadToEnd, fun f pos => some (f.seekC pos)⟩

/-- A `MultiFile` as a reader source. -/
def mfSrc : Src MultiFile :=
  ⟨fun m n => let r := mfReadToEnd m n; (r.1, r.2, false), MultiFile.seekM⟩

/-- A cursor-backed source whose reads always report an I/O error after
delivering whatever bytes were available. -/
def errSrc : Src CFile :=
  ⟨fun f n => let fr := f.readC n; (fr.1, fr.2, true), fun f pos => some (f.seekC pos)⟩

/-- Forget the error flag of a source's reads (bytes and state unchanged). -/
def stripErr {σ : Type} (S : Src σ) : Src σ :=
  ⟨fun s n => ((S.takeReadToEnd s n).1, (S.takeReadToEnd s n).2.1, false), S.seekS⟩

/-- `ExactReader` over a source of type `σ`; `viewStart..=viewEnd` is the
`file_offset_view` inclusive range. -/
structure ExactReader (σ : Type) where
  file : σ
  viewStart : Nat
  viewEnd : Nat
  size : Nat
  buffer : VecDeque
  buffer_offset : Nat
  seeked : Option Nat

/-- `ExactReader::new_multi`. -/
def ExactReader.new_multi (m : MultiFile) : ExactReader MultiFile :=
  ⟨m, 0, 0, m.size, VecDeque.new, 0, none⟩

/-- `ExactReader::new_single`. -/
def ExactReader.new_single (f : CFile) : ExactReader CFile :=
  ⟨f, 0, 0, f.size, VecDeque.new, 0, none⟩

/-- `ExactReader::physical_idx`. -/
def ExactReader.physical_idx {σ : Type} (r : ExactReader σ) : Nat :=
  r.viewStart + r.buffer_offset

/-- `ExactReader::_read`: fetch `readSize` bytes from the inner source into
a scratch vector and reset `file_offset_view`; the `let _ =` of the Rust
code drops the source's error. -/
def ExactReader.underRead {σ : Type} (S : Src σ) (r : ExactReader σ)
    (readSize head tail : Nat) : ExactReader σ × List Nat :=
  let t := S.takeReadToEnd r.file readSize
  ({ r with file := t.1, viewStart := head, viewEnd := tail }, t.2.1)

/-- The common tail of `reserve` in the pending-seek case: read
`reserveSize` bytes, zero the in-window cursor, clear the cache and append
the fetched bytes (`none` = out-of-bounds ring write). -/
def ExactReader.reserveReload {σ : Type} (S : Src σ) (r : ExactReader σ)
    (reserveSize seekHead seekTail : Nat) : Option (ExactReader σ) :=
  let rr := r.underRead S reserveSize seekHead seekTail
  let r3 := { rr.1 with buffer_offset := 0, buffer := rr.1.buffer.clear }
  match r3.buffer.extend_back rr.2 with
  | none => none
  | some b => some { r3 with buffer := b }

/-- `ExactReader::reserve`. -/
def ExactReader.reserve {σ : Type} (S : Src σ) (r : ExactReader σ)
    (reserveSize : Nat) : Option (ExactReader σ) :=
  let realHead := r.viewStart
  match r.seeked with
  | some seekHead =>
    let r0 := { r with seeked := none }
    let seekTail := seekHead + reserveSize
    if realHead ≤ seekHead ∧ seekHead ≤ r.viewEnd then
      -- missing `return`: falls through into the full reload below
      let r1 := { r0 with buffer_offset := seekHead - realHead }
      r1.reserveReload S reserveSize seekHead seekTail
    else if realHead ≤ seekTail ∧ seekTail ≤ r.viewEnd then
      let readSize := r.viewStart - seekHead
      let rr := r0.underRead S readSize seekHead seekTail
      let r3 := { rr.1 with buffer_offset := 0 }
      match r3.buffer.extend_front rr.2 with
      | none => none
      | some b => some { r3 with buffer := b }
    else
      r0.reserveReload S reserveSize seekHead seekTail
  | none =>
    if r.buffer_offset + reserveSize ≤ r.buffer.len then some r
    else
      let tail := r.viewStart + r.buffer.len + 0
      let rr := r.underRead S reserveSize r.viewStart tail
      match rr.1.buffer.extend_back rr.2 with
      | none => none
      | some b => some { rr.1 with buffer := b }

/-- `<ExactReader as Read>::read`: reserve, then copy `n` bytes out of the
two-slice view; `none` models the slice-indexing panics of the copy. -/
def ExactReader.readR {σ : Type} (S : Src σ) (r : ExactReader σ) (n : Nat) :
    Option (ExactReader σ × List Nat × Nat) :=
  match r.reserve S n with
  | none => none
  | some r1 =>
    let sl := r1.buffer.as_slices
    let headLen := sl.1.length
    let adjustedHeadLen := headLen - r1.buffer_offset
    let tailOffset := r1.buffer_offset - headLen
    let bytes :=
      if adjustedHeadLen = 0 then
        if tailOffset + n ≤ sl.2.length then
          some ((sl.2.drop tailOffset).take n)
        else none
      else if n ≤ adjustedHeadLen then
        some ((sl.1.drop r1.buffer_offset).take n)
      else
        if n - adjustedHeadLen ≤ sl.2.length then
          some ((sl.1.drop r1.buffer_offset) ++
            ((sl.2.drop tailOffset).take (n - adjustedHeadLen)))
        else none
    match bytes with
    | none => none
    | some bs => some ({ r1 with buffer_offset := r1.buffer_offset + n }, bs, n)

/-- `<ExactReader as Seek>::seek`; `none` propagates a panic from the
source's own seek. -/
def ExactReader.seekR {σ : Type} (S : Src σ) (r : ExactReader σ)
    (pos : SeekFrom) : Option (Except Unit (ExactReader σ × Nat)) :=
  match calculate_seek r.size r.physical_idx pos with
  | .error e => some (.error e)
  | .ok calculatedSeek =>
    if r.viewStart ≤ calculatedSeek ∧ calculatedSeek ≤ r.viewEnd then
      some (.ok ({ r with buffer_offset := calculatedSeek - r.viewStart },
        calculatedSeek))
    else
      match S.seekS r.file pos with
      | none => none
      | some (.error e) => some (.error e)
      | some (.ok fr) =>
          some (.ok ({ r with file := fr.1, seeked := some fr.2 }, fr.2))

/-- `<ExactReader as Seek>::stream_position`. -/
def ExactReader.stream_position {σ : Type} (r : ExactReader σ) : Nat :=
  r.physical_idx

/-! Concrete fixtures used by the claim theorems (the byte contents of the
repository's own tests: sources `[1,2,3]` and `[4,5,6]`). -/

def fA : CFile := ⟨[1, 2, 3], 0, 3⟩

def fB : CFile := ⟨[4, 5, 6], 0, 3⟩

def mf2 : MultiFile := MultiFile.new [fA, fB]

def rdr0 : ExactReader MultiFile := ExactReader.new_multi mf2

def c2read1 : Option (ExactReader MultiFile × List Nat × Nat) := rdr0.readR mfSrc 3

def c2read2 : Option (ExactReader MultiFile × List Nat × Nat) :=
  c2read1.bind (fun p => p.1.readR mfSrc 1)

def c2read3 : Option (ExactReader MultiFile × List Nat × Nat) :=
  c2read2.bind (fun p => p.1.readR mfSrc 5)

/-- A cache holding bytes `[1,2,3]` contiguously from physical slot 0. -/
def buf123 : VecDeque := ⟨0, 3, 8, fun i => if i < 3 then i + 1 else 0⟩

/-- Reader state with window `0..=2`, cache `[1,2,3]`, a pending seek to
offset 1 (inside the window), over a cursor positioned at 3. -/
def c1st : ExactReader CFile :=
  ⟨⟨[1, 2, 3, 4, 5, 6], 3, 6⟩, 0, 2, 6, buf123, 0, some 1⟩

/-- Reader state with no pending seek, cache `[10,…,14]` at window start 0,
in-window cursor 3, over a cursor-backed source positioned at 5. -/
def c6st : ExactReader CFile :=
  ⟨⟨List.range 12, 5, 12⟩, 0, 4, 12, ⟨0, 5, 8, fun i => if i < 5 then 10 + i else 0⟩, 3, none⟩

def c6r1 : ExactReader CFile := (c6st.reserve cursorSrc 4).getD c6st

/-- Reader state with cache `[1,2,3]` and cursor 0 over a source whose next
fetch delivers one byte (`9`) and then reports an I/O error. -/
def c7st : ExactReader CFile :=
  ⟨⟨[1, 2, 3, 9], 3, 4⟩, 0, 3, 4, buf123, 0, none⟩

/-- Reader state used to witness the in-window seek theorem. -/
def c3w : ExactReader CFile := ⟨⟨[1, 2, 3], 0, 3⟩, 0, 2, 3, buf123, 0, none⟩

/-- Extend-only operation chain reaching the out-of-bounds write of
`extend_back` from the empty deque. -/
def c10chain : Option VecDeque :=
  (((VecDeque.new.extend_front [1, 2, 3]).bind (·.extend_back [4])).bind
    (·.extend_back [5, 6, 7, 8, 9])).bind (·.extend_back [10, 11, 12])

/-- The four mutating deque operations of the claim. -/
inductive DeqOp
  | push_back (v : Nat)
  | push_front (v : Nat)
  | pop_front
  | pop_back

def DeqOp.apply (q : VecDeque) : DeqOp → VecDeque
  | .push_back v => q.push_back v
  | .push_front v => q.push_front v
  | .pop_front => (q.pop_front).1
  | .pop_back => (q.pop_back).1

/-- The logical element sequence implied by one operation. -/
def DeqOp.model (l : List Nat) : DeqOp → List Nat
  | .push_back v => l ++ [v]
  | .push_front v => v :: l
  | .pop_front => l.tail
  | .pop_back => l.dropLast

def runOps (ops : List DeqOp) : VecDeque := ops.foldl DeqOp.apply VecDeque.new

def modelOps (ops : List DeqOp) : List Nat := ops.foldl DeqOp.model []

/-! Claim theorems. -/

/-- C1: the claim says that consuming a pending seek whose target lies
inside the cached window only sets the in-window cursor, performs no I/O
and leaves cache and window unchanged.  The code's in-window branch is
missing its early `return`, so it falls through into the full reload: at a
state with window `0..=2`, cache `[1,2,3]` and pending seek 1, `reserve 1`
fetches one byte from the source (its position moves 3 → 4), clears the
cache, replaces it with the fetched byte `4`, resets the cursor to 0, and
shrinks the window to `1..=2` — everything the claim forbids. -/
theorem c1_reserve_in_window_reloads :
    (c1st.reserve cursorSrc 1).map (fun r =>
      (r.buffer.len, r.buffer_offset, r.viewStart, r.viewEnd, r.file.pos,
        r.buffer.data 0, r.seeked)) = some (1, 0, 1, 2, 4, 4, none) ∧
    c1st.buffer.len = 3 ∧ c1st.file.pos = 3 ∧ c1st.buffer.data 0 = 1 :=
  ⟨rfl, rfl, rfl, rfl⟩

/-- C2: over concatenated sources `[1,2,3]` and `[4,5,6]`, reading 3 bytes
then 1 byte succeeds as claimed, but the third read of 5 bytes does not
return a short `Ok(2)`: the cache holds only 6 bytes for a request of
offsets `[4,9)`, and the copy indexes the empty tail slice out of bounds —
a panic, modelled by `none`. -/
theorem c2_eos_read_panics :
    c2read1.map (fun p => (p.2.1, p.2.2)) = some ([1, 2, 3], 3) ∧
    c2read2.map (fun p => (p.2.1, p.2.2)) = some ([4], 1) ∧
    c2read3 = none :=
  ⟨rfl, rfl, rfl⟩

/-- C3 counterexample: on a fresh reader over `[1,2,3] ++ [4,5,6]`
(`total_size = 6`, so `p = 5` is a valid offset), `seek(Start 5)` returns
`Ok(5)` but the immediately following `stream_position` still reports 0:
the pending seek is not reflected by `physical_idx`. -/
theorem c3_seek_then_position_cex :
    (rdr0.seekR mfSrc (.start 5)).map (fun e => e.map (fun p =>
      (p.2, p.1.stream_position))) = some (.ok (5, 0)) ∧ (0 : Nat) ≠ 5 :=
  ⟨rfl, by decide⟩

/-- C3 amended: when the target lies inside the cached window
(`viewStart ≤ p ≤ viewEnd`), `seek(Start p)` succeeds with `Ok(p)`,
performs no I/O on the underlying source — cache, window and pending-seek
flag untouched — and the following `stream_position` does return `p`. -/
theorem c3_seek_in_window_position {σ : Type} (S : Src σ) (r : ExactReader σ)
    (p : Nat) (h1 : r.viewStart ≤ p) (h2 : p ≤ r.viewEnd) :
    ∃ r1, r.seekR S (.start p) = some (.ok (r1, p)) ∧
      r1.stream_position = p ∧ r1.buffer = r.buffer ∧ r1.file = r.file ∧
      r1.viewStart = r.viewStart ∧ r1.viewEnd = r.viewEnd ∧
      r1.seeked = r.seeked := by
  refine ⟨{ r with buffer_offset := p - r.viewStart }, ?_, ?_, rfl, rfl, rfl, rfl, rfl⟩
  · unfold ExactReader.seekR calculate_seek
    simp only [Int.toNat_natCast, zero_add]
    have hnn : ¬ ((p : Int) < 0) := by omega
    simp [hnn, h1, h2]
  · unfold ExactReader.stream_position ExactReader.physical_idx
    simp only []
    omega

theorem c3_seek_in_window_position_witness :
    ∃ r1, c3w.seekR cursorSrc (.start 1) = some (.ok (r1, 1)) ∧
      r1.stream_position = 1 ∧ r1.buffer = c3w.buffer ∧ r1.file = c3w.file ∧
      r1.viewStart = c3w.viewStart ∧ r1.viewEnd = c3w.viewEnd ∧
      r1.seeked = c3w.seeked :=
  c3_seek_in_window_position cursorSrc c3w 1 (by decide) (by decide)

/-- C4: on the fresh two-source `MultiFile` (`total_len = 6`, cursor at
file 0), the needle 6 = `total_size` — produced by `seek(SeekFrom::End(0))`
— passes the `> total_len` guard, takes the forward scan whose condition
`res + size > needle` never fires, and falls into `unreachable!()`: a
panic, not `Some`.  (`None` is indeed returned exactly above `total_len`,
and interior needles are found.) -/
theorem c4_seek_end_panics :
    mf2.total_len = 6 ∧
    mf2.needle_to_file 6 = .panicked ∧
    mf2.seekM (.fromEnd 0) = none ∧
    mf2.needle_to_file 7 = .notFound ∧
    mf2.needle_to_file 5 = .file 1 :=
  ⟨rfl, rfl, rfl, rfl, rfl⟩

/-- C5: after two consecutive one-byte reads inside the first source of
`[1,2,3] ++ [4,5,6]` (yielding `[1]` then `[2]`), the next byte a read
returns sits at logical offset 2 (it is `[3]`), yet
`cumul_offset + infile_offset = 0 + 1 = 1`: `read` overwrites
`infile_offset` with this call's count instead of accumulating it. -/
theorem c5_physical_position_cex :
    (mf2.readM 1).2 = [1] ∧
    ((mf2.readM 1).1.readM 1).2 = [2] ∧
    ((mf2.readM 1).1.readM 1).1.physical_offset = 1 ∧
    (((mf2.readM 1).1.readM 1).1.readM 1).2 = [3] ∧ (1 : Nat) ≠ 2 :=
  ⟨rfl, rfl, rfl, rfl, by decide⟩

/-- C6 counterexample: cache `[10,…,14]` (5 bytes, window start 0), cursor
`window_offset = 3`, request `n = 4`.  Only 2 bytes are missing, yet the
code fetches 4 (cache grows to 9 bytes, not 7), and the recorded window
becomes `0..=5` — `viewEnd = 5 ≠ 8`, so the window does not exactly cover
the 9 cached bytes `[0,9)`. -/
theorem c6_reservation_cex :
    (c6st.reserve cursorSrc 4).map (fun r =>
      (r.buffer.len, r.viewStart, r.viewEnd)) = some (9, 0, 5) ∧
    c6st.buffer.len = 5 ∧ c6st.buffer_offset = 3 ∧
    (9 : Nat) ≠ 5 + 2 ∧ (5 : Nat) ≠ 8 :=
  ⟨rfl, rfl, rfl, by decide, by decide⟩

/-- C7 counterexample: the underlying source delivers one byte (`9`) and
then reports an I/O error; the cache already held `[1,2,3]`.  `read(4)`
returns `Ok(4)` with `[1,2,3,9]` — the error was discarded by the
`let _ =` in `_read` and converted into a successful result. -/
theorem c7_error_discarded_cex :
    (c7st.readR errSrc 4).map (fun p => (p.2.1, p.2.2)) =
      some ([1, 2, 3, 9], 4) :=
  rfl

/-- C7 amended: every I/O error reported by the source during the fetches
of `reserve` is discarded: the outcome of `read` (and of `reserve`) is
identical to running the same source with its error flag stripped, so an
underlying error is never surfaced as `Err`. -/
theorem c7_error_flag_irrelevant {σ : Type} (S : Src σ) (r : ExactReader σ)
    (n : Nat) :
    r.readR (stripErr S) n = r.readR S n ∧
    r.reserve (stripErr S) n = r.reserve S n :=
  ⟨rfl, rfl⟩

/-- C10: `extend_back`/`extend_front` issue one single non-wrapping copy,
so a state whose free run wraps past the end of the allocation is written
out of bounds.  The chain `extend_front [1,2,3]; extend_back [4];
extend_back [5,6,7,8,9]` reaches (from the empty deque) capacity 16,
head 5, len 9; the next `extend_back [10,11,12]` computes physical tail 14
and writes slots 14..17, leaving the 16-slot allocation (`none`).
`extend_front` fails the same way when the head run wraps below slot 0. -/
theorem c10_extend_oob :
    c10chain = none ∧
    (VecDeque.mk 2 3 8 (fun _ => 0)).extend_front [1, 2, 3, 4, 5] = none :=
  ⟨rfl, rfl⟩

/-! Pointwise lemmas about the physical-buffer primitives. -/

lemma copyF_in (f : Nat → Nat) {src dst len p : Nat} (h1 : dst ≤ p)
    (h2 : p < dst + len) : copyF f src dst len p = f (src + (p - dst)) := by
  unfold copyF
  rw [if_pos ⟨h1, h2⟩]

lemma copyF_out (f : Nat → Nat) {src dst len p : Nat}
    (h : p < dst ∨ dst + len ≤ p) : copyF f src dst len p = f p := by
  unfold copyF
  rw [if_neg (by omega)]

lemma writeList_in (f : Nat → Nat) {start p : Nat} {s : List Nat}
    (h1 : start ≤ p) (h2 : p < start + s.length) :
    writeList f start s p = s.getD (p - start) 0 := by
  unfold writeList
  rw [if_pos ⟨h1, h2⟩]

lemma writeList_out (f : Nat → Nat) {start p : Nat} {s : List Nat}
    (h : p < start ∨ start + s.length ≤ p) : writeList f start s p = f p := by
  unfold writeList
  rw [if_neg (by omega)]

lemma writeOne_at (f : Nat → Nat) (idx v : Nat) : writeOne f idx v idx = v := by
  unfold writeOne
  rw [if_pos rfl]

lemma writeOne_out (f : Nat → Nat) {idx p : Nat} (v : Nat) (h : p ≠ idx) :
    writeOne f idx v p = f p := by
  unfold writeOne
  rw [if_neg h]

lemma mod_two_cases (x n : Nat) (h : x < 2 * n) :
    (x % n = x ∧ x < n) ∨ (x % n = x - n ∧ n ≤ x) := by
  rcases Nat.lt_or_ge x n with h1 | h1
  · exact Or.inl ⟨Nat.mod_eq_of_lt h1, h1⟩
  · refine Or.inr ⟨?_, h1⟩
    rw [Nat.mod_eq_sub_mod h1, Nat.mod_eq_of_lt (by omega)]

lemma wrapIndex_eq_mod (x n : Nat) (h : x < 2 * n) : wrapIndex x n = x % n := by
  unfold wrapIndex
  rcases mod_two_cases x n h with ⟨h1, h2⟩ | ⟨h1, h2⟩ <;> split_ifs <;> omega

lemma getD_range_map (s : List Nat) :
    (List.range s.length).map (fun m => s.getD m 0) = s := by
  apply List.ext_getElem
  · simp
  · intro i h1 h2
    simp only [List.getElem_map, List.getElem_range]
    exact List.getD_eq_getElem s 0 h2

lemma toList_length (q : VecDeque) : q.toList.length = q.len := by
  simp [VecDeque.toList]

lemma toList_congr (q' q : VecDeque) (hlen : q'.len = q.len)
    (h : ∀ i < q.len, q'.data ((q'.head + i) % q'.cap) =
      q.data ((q.head + i) % q.cap)) : q'.toList = q.toList := by
  unfold VecDeque.toList
  rw [hlen]
  exact List.map_congr_left (fun i hi => h i (List.mem_range.mp hi))

/-- `handle_capacity_increase` preserves the logical contents and the
invariant when the capacity grows from `oldCap` to the stored `cap`. -/
lemma hci_spec (head len oldCap newCap : Nat) (f : Nat → Nat)
    (hlen : len ≤ oldCap) (hh0 : oldCap = 0 → head = 0)
    (hh : 0 < oldCap → head < oldCap) (hcap : oldCap ≤ newCap) :
    (VecDeque.handle_capacity_increase ⟨head, len, newCap, f⟩ oldCap).len = len ∧
    (VecDeque.handle_capacity_increase ⟨head, len, newCap, f⟩ oldCap).cap = newCap ∧
    (0 < newCap → (VecDeque.handle_capacity_increase ⟨head, len, newCap, f⟩ oldCap).head < newCap) ∧
    (newCap = 0 → (VecDeque.handle_capacity_increase ⟨head, len, newCap, f⟩ oldCap).head = 0) ∧
    (VecDeque.handle_capacity_increase ⟨head, len, newCap, f⟩ oldCap).toList =
      VecDeque.toList ⟨head, len, oldCap, f⟩ := by
  unfold VecDeque.handle_capacity_increase
  dsimp only
  split_ifs with hA hB
  · -- case A: already contiguous, nothing moves
    refine ⟨rfl, rfl, ?_, ?_, ?_⟩
    · intro hc
      show head < newCap
      rcases Nat.eq_zero_or_pos oldCap with h0 | h0
      · have := hh0 h0; omega
      · have := hh h0; omega
    · intro hc
      show head = 0
      have h0 : oldCap = 0 := by omega
      exact hh0 h0
    · refine toList_congr _ _ rfl ?_
      intro i hi
      have hi2 : i < len := hi
      show f ((head + i) % newCap) = f ((head + i) % oldCap)
      have hp : head + i < oldCap := by omega
      rw [Nat.mod_eq_of_lt (show head + i < newCap by omega), Nat.mod_eq_of_lt hp]
  · -- case B: move the wrapped tail up to the old capacity boundary
    have h0 : 0 < oldCap := by
      rcases Nat.eq_zero_or_pos oldCap with h0 | h0
      · exfalso; apply hA; have := hh0 h0; omega
      · exact h0
    have hhead : head < oldCap := hh h0
    refine ⟨rfl, rfl, ?_, ?_, ?_⟩
    · intro _
      show head < newCap
      omega
    · intro hc; omega
    · refine toList_congr _ _ rfl ?_
      intro i hi
      have hi2 : i < len := hi
      show copyF f 0 oldCap (len - (oldCap - head)) ((head + i) % newCap) =
        f ((head + i) % oldCap)
      rcases Nat.lt_or_ge i (oldCap - head) with hcase | hcase
      · have hp : head + i < oldCap := by omega
        rw [Nat.mod_eq_of_lt (show head + i < newCap by omega),
          Nat.mod_eq_of_lt hp]
        exact copyF_out f (Or.inl (by omega))
      · have hmod : (head + i) % oldCap = head + i - oldCap := by
          rcases mod_two_cases (head + i) oldCap (by omega) with ⟨a, b⟩ | ⟨a, b⟩ <;> omega
        rw [Nat.mod_eq_of_lt (show head + i < newCap by omega), hmod,
          copyF_in f (by omega) (by omega)]
        congr 1
        omega
  · -- case C: move the head segment to the end of the new allocation
    have h0 : 0 < oldCap := by
      rcases Nat.eq_zero_or_pos oldCap with h0 | h0
      · exfalso; apply hA; have := hh0 h0; omega
      · exact h0
    have hhead : head < oldCap := hh h0
    refine ⟨rfl, rfl, ?_, ?_, ?_⟩
    · intro _
      show newCap - (oldCap - head) < newCap
      omega
    · intro hc; omega
    · refine toList_congr _ _ rfl ?_
      intro i hi
      have hi2 : i < len := hi
      show copyF f head (newCap - (oldCap - head)) (oldCap - head)
        ((newCap - (oldCap - head) + i) % newCap) = f ((head + i) % oldCap)
      rcases Nat.lt_or_ge i (oldCap - head) with hcase | hcase
      · have hp : newCap - (oldCap - head) + i < newCap := by omega
        rw [Nat.mod_eq_of_lt hp,
          Nat.mod_eq_of_lt (show head + i < oldCap by omega),
          copyF_in f (by omega) (by omega)]
        congr 1
        omega
      · have hmodL : (newCap - (oldCap - head) + i) % newCap =
            i - (oldCap - head) := by
          rcases mod_two_cases (newCap - (oldCap - head) + i) newCap
            (by omega) with ⟨a, b⟩ | ⟨a, b⟩ <;> omega
        have hmodR : (head + i) % oldCap = head + i - oldCap := by
          rcases mod_two_cases (head + i) oldCap (by omega) with ⟨a, b⟩ | ⟨a, b⟩ <;> omega
        rw [hmodL, hmodR, copyF_out f (Or.inl (by omega))]
        congr 1
        omega

lemma toList_split (q : VecDeque) (a b : Nat) (hab : q.len = a + b) :
    q.toList = (List.range a).map (fun i => q.data ((q.head + i) % q.cap)) ++
      (List.range b).map (fun m => q.data ((q.head + (a + m)) % q.cap)) := by
  unfold VecDeque.toList
  rw [hab, List.range_add, List.map_append, List.map_map]
  rfl

/-- `VecDeque::reserve` preserves the contents and provides room. -/
lemma reserve_spec (q : VecDeque) (additional : Nat) (hInv : q.Inv) :
    (q.reserve additional).Inv ∧ (q.reserve additional).toList = q.toList ∧
    (q.reserve additional).len = q.len ∧
    q.len + additional ≤ (q.reserve additional).cap ∧
    q.cap ≤ (q.reserve additional).cap := by
  obtain ⟨hlc, hc0, hhc⟩ := hInv
  unfold VecDeque.reserve
  split_ifs with hg
  · have hmono : q.cap ≤ growCap q.cap (q.len + additional) := by
      unfold growCap; omega
    have hroom : q.len + additional ≤ growCap q.cap (q.len + additional) := by
      unfold growCap; omega
    obtain ⟨hL, hC, hH, hH0, hT⟩ := hci_spec q.head q.len q.cap
      (growCap q.cap (q.len + additional)) q.data hlc hc0 hhc hmono
    refine ⟨⟨?_, ?_, ?_⟩, ?_, hL, ?_, ?_⟩
    · rw [hL, hC]; omega
    · intro hc; exact hH0 (by omega)
    · intro hc; rw [hC]; exact hH (by omega)
    · exact hT
    · rw [hC]; exact hroom
    · rw [hC]; exact hmono
  · exact ⟨⟨hlc, hc0, hhc⟩, rfl, rfl, by omega, Nat.le_refl _⟩

/-- `VecDeque::grow` preserves the contents and strictly enlarges. -/
lemma grow_spec (q : VecDeque) (hInv : q.Inv) :
    (q.grow).Inv ∧ q.grow.toList = q.toList ∧ q.grow.len = q.len ∧
    q.cap < q.grow.cap := by
  obtain ⟨hlc, hc0, hhc⟩ := hInv
  have hmono : q.cap ≤ growCap q.cap (q.cap + 1) := by
    unfold growCap; omega
  have hstrict : q.cap + 1 ≤ growCap q.cap (q.cap + 1) := by
    unfold growCap; omega
  obtain ⟨hL, hC, hH, hH0, hT⟩ := hci_spec q.head q.len q.cap
    (growCap q.cap (q.cap + 1)) q.data hlc hc0 hhc hmono
  unfold VecDeque.grow
  refine ⟨⟨?_, ?_, ?_⟩, hT, hL, ?_⟩
  · rw [hL, hC]; omega
  · intro hc; exact hH0 (by omega)
  · intro hc; rw [hC]; exact hH (by omega)
  · rw [hC]; omega

/-- A successful `extend_back` appends the slice to the logical contents. -/
lemma extend_back_spec (q : VecDeque) (s : List Nat) (q' : VecDeque)
    (hInv : q.Inv) (h : q.extend_back s = some q') :
    q'.toList = q.toList ++ s ∧ q'.Inv ∧ q'.len = q.len + s.length ∧
    q.cap ≤ q'.cap := by
  by_cases hz : s.length = 0
  · unfold VecDeque.extend_back at h
    rw [if_pos hz] at h
    injection h with h
    subst h
    have hs : s = [] := List.length_eq_zero.mp hz
    exact ⟨by simp [hs], hInv, by omega, Nat.le_refl _⟩
  · obtain ⟨hI1, hT1, hL1, hroom, hmono⟩ := reserve_spec q s.length hInv
    obtain ⟨hlc1, hc01, hhc1⟩ := hI1
    have hcappos : 0 < (q.reserve s.length).cap := by omega
    have hhead1 : (q.reserve s.length).head < (q.reserve s.length).cap :=
      hhc1 hcappos
    have htail : (q.reserve s.length).to_physical_idx (q.reserve s.length).len =
        ((q.reserve s.length).head + (q.reserve s.length).len) %
          (q.reserve s.length).cap := by
      unfold VecDeque.to_physical_idx VecDeque.wrap_add
      exact wrapIndex_eq_mod _ _ (by omega)
    unfold VecDeque.extend_back at h
    rw [if_neg hz] at h
    simp only [htail] at h
    split_ifs at h with hb
    · injection h with h
      subst h
      set q1 := q.reserve s.length with hq1
      set t := (q1.head + q1.len) % q1.cap with ht
      refine ⟨?_, ⟨show q1.len + s.length ≤ q1.cap by omega,
          fun hc => absurd (show q1.cap = 0 from hc) (by omega),
          fun _ => show q1.head < q1.cap from hhead1⟩,
        show q1.len + s.length = q.len + s.length by omega,
        show q.cap ≤ q1.cap from hmono⟩
      have hsplit := toList_split
        ⟨q1.head, q1.len + s.length, q1.cap, writeList q1.data t s⟩
        q1.len s.length rfl
      dsimp only at hsplit
      show VecDeque.toList
        ⟨q1.head, q1.len + s.length, q1.cap, writeList q1.data t s⟩ =
        q.toList ++ s
      rw [hsplit]
      congr 1
      · -- the pre-existing elements are unchanged
        rw [← hT1]
        unfold VecDeque.toList
        apply List.map_congr_left
        intro i hi
        have hi2 : i < q1.len := List.mem_range.mp hi
        apply writeList_out
        rcases mod_two_cases (q1.head + i) q1.cap (by omega) with ⟨a1, b1⟩ | ⟨a1, b1⟩ <;>
          rcases mod_two_cases (q1.head + q1.len) q1.cap (by omega) with ⟨a2, b2⟩ | ⟨a2, b2⟩ <;>
          rw [a1] <;> rw [ht, a2] <;> omega
      · -- the appended elements read back exactly `s`
        conv_rhs => rw [← getD_range_map s]
        apply List.map_congr_left
        intro m hm
        have hm2 : m < s.length := List.mem_range.mp hm
        have hpos : (q1.head + (q1.len + m)) % q1.cap = t + m := by
          rw [← Nat.add_assoc, ← Nat.mod_add_mod, ← ht]
          exact Nat.mod_eq_of_lt (by omega)
        rw [hpos, writeList_in q1.data (by omega) (by omega)]
        congr 1
        try omega

/-- `push_back` appends one element. -/
lemma push_back_spec (q : VecDeque) (v : Nat) (hInv : q.Inv) :
    (q.push_back v).Inv ∧ (q.push_back v).toList = q.toList ++ [v] := by
  have hfacts : (if q.len = q.cap then q.grow else q).Inv ∧
      (if q.len = q.cap then q.grow else q).toList = q.toList ∧
      (if q.len = q.cap then q.grow else q).len = q.len ∧
      (if q.len = q.cap then q.grow else q).len <
        (if q.len = q.cap then q.grow else q).cap := by
    split_ifs with hfull
    · obtain ⟨hI, hT, hL, hC⟩ := grow_spec q hInv
      exact ⟨hI, hT, hL, by omega⟩
    · obtain ⟨a, b, c⟩ := hInv
      exact ⟨⟨a, b, c⟩, rfl, rfl, by omega⟩
  unfold VecDeque.push_back
  set q1 := if q.len = q.cap then q.grow else q with hq1
  obtain ⟨⟨hlc1, hc01, hhc1⟩, hT1, hL1, hlt⟩ := hfacts
  have hcappos : 0 < q1.cap := by omega
  have hhead1 : q1.head < q1.cap := hhc1 hcappos
  have hphys : q1.to_physical_idx q1.len = (q1.head + q1.len) % q1.cap := by
    unfold VecDeque.to_physical_idx VecDeque.wrap_add
    exact wrapIndex_eq_mod _ _ (by omega)
  refine ⟨⟨show q1.len + 1 ≤ q1.cap by omega,
    fun hc => absurd (show q1.cap = 0 from hc) (by omega),
    fun _ => show q1.head < q1.cap from hhead1⟩, ?_⟩
  show VecDeque.toList ⟨q1.head, q1.len + 1, q1.cap,
    writeOne q1.data (q1.to_physical_idx q1.len) v⟩ = q.toList ++ [v]
  rw [hphys]
  unfold VecDeque.toList
  dsimp only
  rw [List.range_succ, List.map_append, List.map_cons, List.map_nil]
  congr 1
  · have hLt : List.map (fun i => writeOne q1.data ((q1.head + q1.len) % q1.cap) v
        ((q1.head + i) % q1.cap)) (List.range q1.len) = q1.toList := by
      unfold VecDeque.toList
      apply List.map_congr_left
      intro i hi
      have hi2 : i < q1.len := List.mem_range.mp hi
      apply writeOne_out
      rcases mod_two_cases (q1.head + i) q1.cap (by omega) with ⟨a1, b1⟩ | ⟨a1, b1⟩ <;>
        rcases mod_two_cases (q1.head + q1.len) q1.cap (by omega) with ⟨a2, b2⟩ | ⟨a2, b2⟩ <;>
        rw [a1, a2] <;> omega
    rw [hLt, hT1]
    rfl
  · rw [writeOne_at]

/-- `push_front` prepends one element. -/
lemma push_front_spec (q : VecDeque) (v : Nat) (hInv : q.Inv) :
    (q.push_front v).Inv ∧ (q.push_front v).toList = v :: q.toList := by
  have hfacts : (if q.len = q.cap then q.grow else q).Inv ∧
      (if q.len = q.cap then q.grow else q).toList = q.toList ∧
      (if q.len = q.cap then q.grow else q).len = q.len ∧
      (if q.len = q.cap then q.grow else q).len <
        (if q.len = q.cap then q.grow else q).cap := by
    split_ifs with hfull
    · obtain ⟨hI, hT, hL, hC⟩ := grow_spec q hInv
      exact ⟨hI, hT, hL, by omega⟩
    · obtain ⟨a, b, c⟩ := hInv
      exact ⟨⟨a, b, c⟩, rfl, rfl, by omega⟩
  unfold VecDeque.push_front
  set q1 := if q.len = q.cap then q.grow else q with hq1
  obtain ⟨⟨hlc1, hc01, hhc1⟩, hT1, hL1, hlt⟩ := hfacts
  have hcappos : 0 < q1.cap := by omega
  have hhead1 : q1.head < q1.cap := hhc1 hcappos
  have hsub : q1.wrap_sub q1.head 1 = (q1.head + q1.cap - 1) % q1.cap := by
    unfold VecDeque.wrap_sub
    exact wrapIndex_eq_mod _ _ (by omega)
  have hhlt : (q1.head + q1.cap - 1) % q1.cap < q1.cap := Nat.mod_lt _ hcappos
  refine ⟨⟨show q1.len + 1 ≤ q1.cap by omega,
    fun hc => absurd (show q1.cap = 0 from hc) (by omega),
    fun _ => show q1.wrap_sub q1.head 1 < q1.cap from hsub ▸ hhlt⟩, ?_⟩
  show VecDeque.toList ⟨q1.wrap_sub q1.head 1, q1.len + 1, q1.cap,
    writeOne q1.data (q1.wrap_sub q1.head 1) v⟩ = v :: q.toList
  rw [hsub]
  unfold VecDeque.toList
  dsimp only
  rw [List.range_succ_eq_map, List.map_cons, List.map_map]
  congr 1
  · rw [Nat.add_zero, Nat.mod_eq_of_lt hhlt, writeOne_at]
  · have hLt : List.map ((fun i => writeOne q1.data ((q1.head + q1.cap - 1) % q1.cap)
        v (((q1.head + q1.cap - 1) % q1.cap + i) % q1.cap)) ∘ Nat.succ)
        (List.range q1.len) = q1.toList := by
      unfold VecDeque.toList
      apply List.map_congr_left
      intro i hi
      have hi2 : i < q1.len := List.mem_range.mp hi
      simp only [Function.comp_apply]
      have hidx : ((q1.head + q1.cap - 1) % q1.cap + Nat.succ i) % q1.cap =
          (q1.head + i) % q1.cap := by
        rw [Nat.mod_add_mod,
          show q1.head + q1.cap - 1 + Nat.succ i = q1.head + i + q1.cap by omega]
        exact Nat.add_mod_right _ _
      rw [hidx]
      apply writeOne_out
      rcases mod_two_cases (q1.head + i) q1.cap (by omega) with ⟨a1, b1⟩ | ⟨a1, b1⟩ <;>
        rcases mod_two_cases (q1.head + q1.cap - 1) q1.cap (by omega) with ⟨a2, b2⟩ | ⟨a2, b2⟩ <;>
        rw [a1, a2] <;> omega
    rw [hLt, hT1]
    rfl

/-- `pop_front` drops the first element. -/
lemma pop_front_spec (q : VecDeque) (hInv : q.Inv) :
    (q.pop_front).1.Inv ∧ (q.pop_front).1.toList = q.toList.tail := by
  obtain ⟨hlc, hc0, hhc⟩ := hInv
  unfold VecDeque.pop_front
  split_ifs with hz
  · exact ⟨⟨hlc, hc0, hhc⟩, by simp [VecDeque.toList, hz]⟩
  · have hcappos : 0 < q.cap := by omega
    have hh : q.head < q.cap := hhc hcappos
    have hphys : q.to_physical_idx 1 = (q.head + 1) % q.cap := by
      unfold VecDeque.to_physical_idx VecDeque.wrap_add
      exact wrapIndex_eq_mod _ _ (by omega)
    dsimp only
    refine ⟨⟨show q.len - 1 ≤ q.cap by omega,
      fun hc => absurd (show q.cap = 0 from hc) (by omega),
      fun _ => show q.to_physical_idx 1 < q.cap from
        hphys ▸ Nat.mod_lt _ hcappos⟩, ?_⟩
    show VecDeque.toList ⟨q.to_physical_idx 1, q.len - 1, q.cap, q.data⟩ =
      q.toList.tail
    have hlen : q.len = (q.len - 1) + 1 := by omega
    have htl : q.toList.tail = (List.range (q.len - 1)).map
        (fun i => q.data ((q.head + (i + 1)) % q.cap)) := by
      unfold VecDeque.toList
      rw [hlen, List.range_succ_eq_map, List.map_cons, List.tail_cons,
        List.map_map]
      apply List.map_congr_left
      intro i _
      rfl
    rw [htl]
    unfold VecDeque.toList
    dsimp only
    apply List.map_congr_left
    intro i hi
    rw [hphys, Nat.mod_add_mod, show q.head + 1 + i = q.head + (i + 1) by omega]

/-- `pop_back` drops the last element. -/
lemma pop_back_spec (q : VecDeque) (hInv : q.Inv) :
    (q.pop_back).1.Inv ∧ (q.pop_back).1.toList = q.toList.dropLast := by
  obtain ⟨hlc, hc0, hhc⟩ := hInv
  unfold VecDeque.pop_back
  split_ifs with hz
  · exact ⟨⟨hlc, hc0, hhc⟩, by simp [VecDeque.toList, hz]⟩
  · dsimp only
    refine ⟨⟨show q.len - 1 ≤ q.cap by omega, hc0, hhc⟩, ?_⟩
    show VecDeque.toList ⟨q.head, q.len - 1, q.cap, q.data⟩ = q.toList.dropLast
    have hlen : q.len = (q.len - 1) + 1 := by omega
    have hsplitL : q.toList = (List.range (q.len - 1)).map
        (fun i => q.data ((q.head + i) % q.cap)) ++
        [q.data ((q.head + (q.len - 1)) % q.cap)] := by
      unfold VecDeque.toList
      rw [hlen, List.range_succ, List.map_append, List.map_cons, List.map_nil]
      simp only [Nat.add_sub_cancel]
    rw [hsplitL, List.dropLast_concat]
    rfl

/-- Concatenating the two slices of `as_slices` yields the logical list. -/
lemma as_slices_concat (q : VecDeque) (hInv : q.Inv) :
    (q.as_slices).1 ++ (q.as_slices).2 = q.toList := by
  obtain ⟨hlc, hc0, hhc⟩ := hInv
  simp only [VecDeque.as_slices]
  split_ifs with hz hcontig
  · simp [VecDeque.toList, hz]
  · have hcappos : 0 < q.cap := by omega
    have hh : q.head < q.cap := hhc hcappos
    have hws : q.to_physical_idx 0 = q.head := by
      unfold VecDeque.to_physical_idx VecDeque.wrap_add wrapIndex
      rw [Nat.add_zero, if_neg (by omega)]
    rw [hws] at hcontig ⊢
    rw [List.append_nil]
    unfold VecDeque.slice_proj VecDeque.toList
    apply List.map_congr_left
    intro i hi
    have hi2 : i < q.len := List.mem_range.mp hi
    rw [Nat.mod_eq_of_lt (by omega)]
  · have hcappos : 0 < q.cap := by omega
    have hh : q.head < q.cap := hhc hcappos
    have hws : q.to_physical_idx 0 = q.head := by
      unfold VecDeque.to_physical_idx VecDeque.wrap_add wrapIndex
      rw [Nat.add_zero, if_neg (by omega)]
    rw [hws] at hcontig ⊢
    rw [toList_split q (q.cap - q.head) (q.len - (q.cap - q.head)) (by omega)]
    congr 1
    · unfold VecDeque.slice_proj
      apply List.map_congr_left
      intro i hi
      have hi2 : i < q.cap - q.head := List.mem_range.mp hi
      rw [Nat.mod_eq_of_lt (by omega)]
    · unfold VecDeque.slice_proj
      apply List.map_congr_left
      intro m hm
      have hm2 : m < q.len - (q.cap - q.head) := List.mem_range.mp hm
      have hmod : (q.head + ((q.cap - q.head) + m)) % q.cap = m := by
        rw [show q.head + ((q.cap - q.head) + m) = m + q.cap by omega,
          Nat.add_mod_right]
        exact Nat.mod_eq_of_lt (by omega)
      rw [hmod, Nat.zero_add]

/-- Folding deque operations preserves the invariant and tracks the model. -/
lemma fold_ops_spec (ops : List DeqOp) (q : VecDeque) (hInv : q.Inv) :
    (ops.foldl DeqOp.apply q).Inv ∧
    (ops.foldl DeqOp.apply q).toList = ops.foldl DeqOp.model q.toList := by
  induction ops generalizing q with
  | nil => exact ⟨hInv, rfl⟩
  | cons op rest ih =>
    simp only [List.foldl_cons]
    have hstep : (DeqOp.apply q op).Inv ∧
        (DeqOp.apply q op).toList = DeqOp.model q.toList op := by
      cases op with
      | push_back v => exact push_back_spec q v hInv
      | push_front v => exact push_front_spec q v hInv
      | pop_front => exact pop_front_spec q hInv
      | pop_back => exact pop_back_spec q hInv
    obtain ⟨hI, hT⟩ := hstep
    obtain ⟨hI2, hT2⟩ := ih (DeqOp.apply q op) hI
    exact ⟨hI2, by rw [hT2, hT]⟩

/-- C9: for every sequence of `push_back` / `push_front` / `pop_front` /
`pop_back` operations starting from the empty deque, the concatenation of
the two `as_slices` views equals the logical element sequence implied by
the operation history, and `len ≤ capacity` holds in the resulting state —
hence after every operation of the history, growth included, since every
prefix of a sequence is itself a sequence. -/
theorem c9_ring_buffer_ops (ops : List DeqOp) :
    (runOps ops).as_slices.1 ++ (runOps ops).as_slices.2 = modelOps ops ∧
    (runOps ops).len ≤ (runOps ops).cap := by
  have h0 : VecDeque.new.Inv := by decide
  unfold runOps modelOps
  obtain ⟨hI, hT⟩ := fold_ops_spec ops VecDeque.new h0
  refine ⟨?_, hI.1⟩
  rw [as_slices_concat _ hI, hT]
  rfl

/-- C6 amended: with no pending seek, a reservation that already has
`window_offset + n` cached bytes does nothing at all; otherwise the code
fetches `n` bytes from the source's current position (which may exceed the
missing suffix), appends them to the cache, and records the window as
`start..=start+old_len`, an end that does not cover the appended bytes. -/
theorem c6_reservation_amended {σ : Type} (S : Src σ) (r : ExactReader σ)
    (n : Nat) (hInv : r.buffer.Inv) (hns : r.seeked = none) :
    (r.buffer_offset + n ≤ r.buffer.len → r.reserve S n = some r) ∧
    (r.buffer.len < r.buffer_offset + n →
      ∀ r1, r.reserve S n = some r1 →
        r1.buffer.toList = r.buffer.toList ++ (S.takeReadToEnd r.file n).2.1 ∧
        r1.viewStart = r.viewStart ∧
        r1.viewEnd = r.viewStart + r.buffer.len ∧
        r1.buffer_offset = r.buffer_offset ∧
        r1.file = (S.takeReadToEnd r.file n).1 ∧
        r1.seeked = none) := by
  obtain ⟨file, vs, ve, sz, buf, off, seeked⟩ := r
  dsimp only at hns hInv ⊢
  subst hns
  constructor
  · intro hhit
    simp only [ExactReader.reserve]
    rw [if_pos hhit]
  · intro hmiss r1 hres
    simp only [ExactReader.reserve, ExactReader.underRead] at hres
    rw [if_neg (by omega)] at hres
    rcases hext : buf.extend_back (S.takeReadToEnd file n).2.1 with _ | b
    · rw [hext] at hres
      exact absurd hres (by simp)
    · rw [hext] at hres
      obtain ⟨hT, hI, hL, hC⟩ := extend_back_spec buf _ b hInv hext
      injection hres with h1
      subst h1
      dsimp only at hmiss ⊢
      exact ⟨hT, rfl, by omega, rfl, rfl, rfl⟩

theorem c6_reservation_amended_witness :
    (c6st.buffer_offset + 4 ≤ c6st.buffer.len → c6st.reserve cursorSrc 4 = some c6st) ∧
    (c6st.buffer.len < c6st.buffer_offset + 4 →
      ∀ r1, c6st.reserve cursorSrc 4 = some r1 →
        r1.buffer.toList = c6st.buffer.toList ++
          (cursorSrc.takeReadToEnd c6st.file 4).2.1 ∧
        r1.viewStart = c6st.viewStart ∧
        r1.viewEnd = c6st.viewStart + c6st.buffer.len ∧
        r1.buffer_offset = c6st.buffer_offset ∧
        r1.file = (cursorSrc.takeReadToEnd c6st.file 4).1 ∧
        r1.seeked = none) :=
  c6_reservation_amended cursorSrc c6st 4 (by decide) rfl

/-- C8: `wrap_copy` moves the `len` elements at wrapped physical positions
`src..src+len` to `dst..dst+len` exactly as a copy through an intermediate
buffer would, under its documented precondition
`min(|src-dst|, cap-|src-dst|) + len ≤ cap`: in every one of the 8 cases
no source element is overwritten before it is read. -/
theorem c8_wrap_copy_correct (q : VecDeque) (src dst len i : Nat)
    (hs : src < q.cap) (hd : dst < q.cap)
    (hpre : min (max src dst - min src dst)
      (q.cap - (max src dst - min src dst)) + len ≤ q.cap)
    (hi : i < len) :
    (q.wrap_copy src dst len).data ((dst + i) % q.cap) =
      q.data ((src + i) % q.cap) := by
  by_cases heq : src = dst
  · unfold VecDeque.wrap_copy
    rw [if_pos (Or.inl heq), heq]
  · have hlen : len ≤ q.cap := by omega
    unfold VecDeque.wrap_copy
    rw [if_neg (by omega)]
    unfold VecDeque.wrap_sub wrapIndex
    dsimp only
    rcases mod_two_cases (dst + i) q.cap (by omega) with ⟨e1, b1⟩ | ⟨e1, b1⟩ <;>
      rcases mod_two_cases (src + i) q.cap (by omega) with ⟨e2, b2⟩ | ⟨e2, b2⟩ <;>
      rw [e1, e2] <;>
      split_ifs <;>
      simp only [copyF] <;>
      split_ifs <;>
      first
        | rfl
        | (congr 1; omega)

theorem c8_wrap_copy_correct_witness :
    ((VecDeque.mk 0 0 5 (fun j => j)).wrap_copy 3 0 3).data ((0 + 1) % 5) =
      (VecDeque.mk 0 0 5 (fun j => j)).data ((3 + 1) % 5) :=
  c8_wrap_copy_correct (VecDeque.mk 0 0 5 (fun j => j)) 3 0 3 1 (by decide)
    (by decide) (by decide) (by decide)
